import Mathlib

/-!  Formal model of the portfolio-management core of
`src/reverie/backend_server/persona/persona1.py` (class `Persona`).

Python dicts (`current_investments`, `market_knowledge`) are modelled as
association lists with string keys kept in insertion order, mutated only
through `dictSet` (Python `d[k] = v` / in-place field update) and
`dictErase` (Python `del d[k]`).  Machine floats are modelled as exact
rationals.  A Python `KeyError` or `ZeroDivisionError` is modelled as
`Option.none`; operations that cannot raise return plain values. -/

/-- Holding record stored in `current_investments`.  In the source a
holding is a string-keyed dict; these are the fields the core reads.
`purchase_price` and `current_price` are `Option` because `buy_stock`
creates new holdings with only `quantity` and `purchase_price` keys, so
`current_price` can be absent (a read of an absent key is a `KeyError`). -/
structure Holding where
  quantity : ℚ
  purchase_price : Option ℚ
  current_price : Option ℚ
  deriving DecidableEq, Repr

/-- Observation record stored in `market_knowledge`, as populated by
`initialize_market_knowledge`: fields `current_price`, `sentiment`,
`is_undervalued`. -/
structure Observation where
  current_price : ℚ
  sentiment : ℚ
  is_undervalued : Bool
  deriving DecidableEq, Repr

/-- A Python dict with string keys, as an insertion-ordered association
list.  A well-formed dict has no duplicate keys (`WFStore`). -/
abbrev Store (β : Type) := List (String × β)

/-- Well-formedness of a store: keys are pairwise distinct, as holds for
every Python dict. -/
abbrev WFStore {β : Type} (m : Store β) : Prop := (m.map Prod.fst).Nodup

/-- Python dict assignment `m[k] = v`: overwrite in place if the key is
present (order preserved), otherwise append the new binding at the end. -/
def dictSet {β : Type} (m : Store β) (k : String) (v : β) : Store β :=
  if (m.lookup k).isSome then
    m.map (fun e => if e.1 == k then (k, v) else e)
  else
    m ++ [(k, v)]

/-- Python `del m[k]`: remove the binding for `k`. -/
def dictErase {β : Type} (m : Store β) (k : String) : Store β :=
  m.eraseP (fun e => e.1 == k)

/-- Agent state: the fields of `Persona.__init__` that the portfolio core
touches.  `transaction_history` stores trade records; no operation in the
source ever constructs one, so its element type is immaterial and a
plain string placeholder is used. -/
structure Persona where
  name : String
  role : String
  current_investments : Store Holding
  market_knowledge : Store Observation
  risk_tolerance : ℚ
  cash_reserves : ℚ
  transaction_history : List String
  deriving DecidableEq, Repr

/-- Market data installed by `initialize_market_knowledge`. -/
def default_market_knowledge : Store Observation :=
  [("StockA", { current_price := 100, sentiment := 6/10, is_undervalued := true }),
   ("StockB", { current_price := 150, sentiment := 4/10, is_undervalued := false })]

/-- A freshly constructed `Persona` with no saved memory folder: empty
portfolio, default market knowledge, default scalar fields. -/
def personaInit (nm rl : String) : Persona :=
  { name := nm
    role := rl
    current_investments := []
    market_knowledge := default_market_knowledge
    risk_tolerance := 1/2
    cash_reserves := 100000
    transaction_history := [] }

/-- Body of the comprehension in `calculate_current_allocation` and the
amount calculators: `sum(info[quantity] * info[current_price] for ...)`.
Returns `none` when some holding has no `current_price` key (`KeyError`
while summing). -/
def totalPortfolioValue : Store Holding → Option ℚ
  | [] => some 0
  | e :: rest =>
    match e.2.current_price, totalPortfolioValue rest with
    | some cp, some s => some (e.2.quantity * cp + s)
    | _, _ => none

/-- Method `calculate_current_allocation(stock)`.  The source computes the
total first, then reads `current_investments[stock]` (a `KeyError` when
the stock is not held, even on an empty portfolio), and only then guards
the division by `total > 0`. -/
def calculate_current_allocation (p : Persona) (stock : String) : Option ℚ := do
  let total ← totalPortfolioValue p.current_investments
  let h ← p.current_investments.lookup stock
  let cp ← h.current_price
  let stock_value := h.quantity * cp
  if total > 0 then pure (stock_value / total) else pure 0

/-- Method `calculate_amount_to_buy(stock, desired_allocation,
current_allocation)`.  Division by a zero `current_price` is a Python
`ZeroDivisionError`, modelled as `none`. -/
def calculate_amount_to_buy (p : Persona) (stock : String)
    (desired_allocation current_allocation : ℚ) : Option ℚ := do
  let total ← totalPortfolioValue p.current_investments
  let desired_stock_value := desired_allocation * total
  let current_stock_value := current_allocation * total
  let amount_to_buy_value := desired_stock_value - current_stock_value
  let h ← p.current_investments.lookup stock
  let cp ← h.current_price
  if cp = 0 then none else pure (amount_to_buy_value / cp)

/-- Method `calculate_amount_to_sell(stock, desired_allocation,
current_allocation)`: the buy formula with the sign flipped. -/
def calculate_amount_to_sell (p : Persona) (stock : String)
    (desired_allocation current_allocation : ℚ) : Option ℚ := do
  let total ← totalPortfolioValue p.current_investments
  let desired_stock_value := desired_allocation * total
  let current_stock_value := current_allocation * total
  let amount_to_sell_value := current_stock_value - desired_stock_value
  let h ← p.current_investments.lookup stock
  let cp ← h.current_price
  if cp = 0 then none else pure (amount_to_sell_value / cp)

/-- Method `buy_stock(stock, amount)`.  If the stock is already held its
quantity is incremented in place; otherwise a new holding is inserted
with `quantity = amount` and `purchase_price` read from
`market_knowledge[stock]` — a `KeyError` (`none`) when the stock is
unknown to the market store.  Note the new holding has no
`current_price` key.  `cash_reserves` is not touched (the debit line in
the source is commented out). -/
def buy_stock (p : Persona) (stock : String) (amount : ℚ) : Option Persona :=
  match p.current_investments.lookup stock with
  | some h =>
      some { p with current_investments := dictSet p.current_investments stock
                      { h with quantity := h.quantity + amount } }
  | none =>
      match p.market_knowledge.lookup stock with
      | some obs =>
          some { p with current_investments := p.current_investments ++
                          [(stock, { quantity := amount,
                                     purchase_price := some obs.current_price,
                                     current_price := none })] }
      | none => none

/-- Method `sell_stock(stock, amount)`.  If the stock is held with
quantity at least `amount`, the quantity is decremented in place and the
binding deleted when the new quantity is exactly 0; otherwise the method
falls into the `pass` branch and the whole state is returned unchanged. -/
def sell_stock (p : Persona) (stock : String) (amount : ℚ) : Persona :=
  match p.current_investments.lookup stock with
  | some h =>
      if amount ≤ h.quantity then
        let reduced := dictSet p.current_investments stock
          { h with quantity := h.quantity - amount }
        if h.quantity - amount = 0 then
          { p with current_investments := dictErase reduced stock }
        else
          { p with current_investments := reduced }
      else p
  | none => p

/-- Per-holding simple return computed inside `evaluate_performance`:
`(current_price - purchase_price) / purchase_price`, reading both keys
(`KeyError` when absent) and raising on a zero `purchase_price`. -/
def stockReturn (h : Holding) : Option ℚ := do
  let cp ← h.current_price
  let pp ← h.purchase_price
  if pp = 0 then none else pure ((cp - pp) / pp)

/-- Accumulation loop of `evaluate_performance`: `total_return` summed
over the holdings, `none` as soon as one holding raises. -/
def sumReturns : Store Holding → Option ℚ
  | [] => some 0
  | e :: rest =>
    match stockReturn e.2, sumReturns rest with
    | some r, some s => some (r + s)
    | _, _ => none

/-- Method `evaluate_performance()`: sums the per-holding returns, then
divides by the number of holdings — a `ZeroDivisionError` (`none`) on an
empty portfolio. -/
def evaluate_performance (p : Persona) : Option ℚ := do
  let total ← sumReturns p.current_investments
  if p.current_investments.length = 0 then none
  else pure (total / (p.current_investments.length : ℚ))

/-- Market value of one holding, reading an absent `current_price` as 0;
used only to state totals of stores all of whose prices are present. -/
def holdingValue (h : Holding) : ℚ := h.quantity * h.current_price.getD 0

/-- Sum of an `Option`-valued function over a list of symbols, `none` as
soon as one application fails; used to state the spec's sum of
`calculate_current_allocation` over the held symbols. -/
def optionSum (f : String → Option ℚ) : List String → Option ℚ
  | [] => some 0
  | s :: rest =>
    match f s, optionSum f rest with
    | some a, some t => some (a + t)
    | _, _ => none

/-- Sum of `calculate_current_allocation` over all held symbols. -/
def allocationSum (p : Persona) : Option ℚ :=
  optionSum (calculate_current_allocation p) (p.current_investments.map Prod.fst)

/-- One call to the trade executor: either `buy_stock` or `sell_stock`
with a symbol and an amount. -/
inductive TradeOp where
  | buy (stock : String) (amount : ℚ)
  | sell (stock : String) (amount : ℚ)
  deriving DecidableEq, Repr

/-- Quantity argument of a trade operation. -/
def TradeOp.amount : TradeOp → ℚ
  | .buy _ a => a
  | .sell _ a => a

/-- Apply one trade operation; `none` when `buy_stock` raises. -/
def applyOp (p : Persona) : TradeOp → Option Persona
  | .buy s a => buy_stock p s a
  | .sell s a => some (sell_stock p s a)

/-- Apply a sequence of trade operations left to right; `none` as soon as
one of them raises. -/
def applyOps (p : Persona) : List TradeOp → Option Persona
  | [] => some p
  | op :: ops => (applyOp p op).bind fun q => applyOps q ops

/-- Invariant claimed by the spec for the portfolio store: well-formed
dict and every holding with strictly positive quantity. -/
def GoodStore (m : Store Holding) : Prop :=
  WFStore m ∧ ∀ e ∈ m, 0 < e.2.quantity

/-- Agent state with one fully-priced holding of quantity 10 (spec
Scenario B/C shape); used to evaluate theorems on explicit inputs. -/
def personaOne : Persona :=
  { personaInit "a" "b" with current_investments :=
      [("StockA", { quantity := 10, purchase_price := some 100, current_price := some 100 })] }

/-- Agent state with two holdings each worth 500 (spec Scenario D shape). -/
def personaTwo : Persona :=
  { personaInit "a" "b" with current_investments :=
      [("StockA", { quantity := 5, purchase_price := some 100, current_price := some 100 }),
       ("StockB", { quantity := 10, purchase_price := some 150, current_price := some 50 })] }

/-- Agent state realising spec Scenario E: returns +0.10 and -0.10. -/
def personaPerf : Persona :=
  { personaInit "a" "b" with current_investments :=
      [("StockA", { quantity := 1, purchase_price := some 100, current_price := some 110 }),
       ("StockB", { quantity := 1, purchase_price := some 100, current_price := some 90 })] }

/-- Agent state immediately after `buy_stock` of a fresh symbol on a new
agent: the single holding has no `current_price` key. -/
def personaFreshBuy : Persona :=
  { personaInit "a" "b" with current_investments :=
      [("StockA", { quantity := 10, purchase_price := some 100, current_price := none })] }

/-- Agent state holding a zero-quantity entry, as produced by
`buy_stock` of quantity 0 on a new agent. -/
def personaZeroHolding : Persona :=
  { personaInit "a" "b" with current_investments :=
      [("StockA", { quantity := 0, purchase_price := some 100, current_price := none })] }

/-! ### Dictionary lemmas -/

theorem lookup_cons_ite {β : Type} (k : String) (e : String × β) (t : Store β) :
    (e :: t).lookup k = if k = e.1 then some e.2 else t.lookup k := by
  rw [List.lookup_cons]
  by_cases h : k = e.1
  · simp [h]
  · simp [h, beq_false_of_ne h]

theorem lookup_eq_none_iff {β : Type} {m : Store β} {k : String} :
    m.lookup k = none ↔ ∀ e ∈ m, e.1 ≠ k := by
  induction m with
  | nil => simp
  | cons e t ih =>
    rw [lookup_cons_ite]
    by_cases h : k = e.1
    · constructor
      · intro hx
        simp [h] at hx
      · intro hall
        exact absurd h.symm (hall e (List.mem_cons_self e t))
    · rw [if_neg h, ih]
      constructor
      · intro hall x hx
        rcases List.mem_cons.mp hx with rfl | hxt
        · exact fun hh => h hh.symm
        · exact hall x hxt
      · intro hall x hx
        exact hall x (List.mem_cons_of_mem _ hx)

theorem mem_of_lookup_eq_some {β : Type} {m : Store β} {k : String} {v : β}
    (h : m.lookup k = some v) : (k, v) ∈ m := by
  induction m with
  | nil => simp at h
  | cons e t ih =>
    rw [lookup_cons_ite] at h
    by_cases hk : k = e.1
    · rw [if_pos hk, Option.some_inj] at h
      exact List.mem_cons.mpr (Or.inl (by rw [hk, ← h]))
    · rw [if_neg hk] at h
      exact List.mem_cons.mpr (Or.inr (ih h))

theorem lookup_of_mem {β : Type} {m : Store β} (hwf : WFStore m) {k : String} {v : β}
    (hm : (k, v) ∈ m) : m.lookup k = some v := by
  induction m with
  | nil => simp at hm
  | cons e t ih =>
    have hwf2 := List.nodup_cons.mp hwf
    rw [lookup_cons_ite]
    rcases List.mem_cons.mp hm with he | ht
    · rw [← he]
      simp
    · by_cases hk : k = e.1
      · exfalso
        apply hwf2.1
        rw [← hk]
        exact List.mem_map_of_mem Prod.fst ht
      · rw [if_neg hk]
        exact ih hwf2.2 ht

theorem lookup_append {β : Type} (m l : Store β) (k : String) :
    (m ++ l).lookup k = (m.lookup k).or (l.lookup k) := by
  induction m with
  | nil => simp
  | cons e t ih =>
    rw [List.cons_append, lookup_cons_ite, lookup_cons_ite]
    by_cases h : k = e.1 <;> simp [h, ih]

theorem map_set_id {β : Type} {m : Store β} {k : String} (h : ∀ e ∈ m, e.1 ≠ k) (v : β) :
    m.map (fun e => if e.1 == k then (k, v) else e) = m := by
  induction m with
  | nil => rfl
  | cons e t ih =>
    rw [List.map_cons, ih (fun x hx => h x (List.mem_cons_of_mem _ hx))]
    rw [if_neg (by simpa using h e (List.mem_cons_self e t))]

theorem lookup_map_set_self {β : Type} {m : Store β} {k : String} (v : β)
    (h : (m.lookup k).isSome) :
    (m.map (fun e => if e.1 == k then (k, v) else e)).lookup k = some v := by
  induction m with
  | nil => simp at h
  | cons e t ih =>
    rw [List.map_cons]
    by_cases hk : e.1 = k
    · rw [if_pos (by simpa using hk), lookup_cons_ite, if_pos rfl]
    · rw [if_neg (by simpa using hk), lookup_cons_ite, if_neg (fun hh => hk hh.symm)]
      apply ih
      rw [lookup_cons_ite, if_neg (fun hh => hk hh.symm)] at h
      exact h

theorem lookup_map_set_ne {β : Type} (m : Store β) {k s : String} (v : β) (h : s ≠ k) :
    (m.map (fun e => if e.1 == k then (k, v) else e)).lookup s = m.lookup s := by
  induction m with
  | nil => rfl
  | cons e t ih =>
    rw [List.map_cons]
    by_cases hk : e.1 = k
    · rw [if_pos (by simpa using hk), lookup_cons_ite, lookup_cons_ite]
      have hs1 : ¬ s = (k, v).1 := h
      have hs2 : ¬ s = e.1 := by
        rw [hk]
        exact h
      rw [if_neg hs1, if_neg hs2]
      exact ih
    · rw [if_neg (by simpa using hk), lookup_cons_ite, lookup_cons_ite]
      by_cases hs : s = e.1
      · simp [hs]
      · rw [if_neg hs, if_neg hs]
        exact ih

theorem lookup_dictSet_self {β : Type} (m : Store β) (k : String) (v : β) :
    (dictSet m k v).lookup k = some v := by
  unfold dictSet
  by_cases hs : (m.lookup k).isSome
  · rw [if_pos hs]
    exact lookup_map_set_self v hs
  · rw [if_neg hs, lookup_append, Option.not_isSome_iff_eq_none.mp hs]
    rw [lookup_cons_ite]
    simp

theorem lookup_dictSet_ne {β : Type} (m : Store β) {k s : String} (v : β) (h : s ≠ k) :
    (dictSet m k v).lookup s = m.lookup s := by
  unfold dictSet
  by_cases hs : (m.lookup k).isSome
  · rw [if_pos hs]
    exact lookup_map_set_ne m v h
  · rw [if_neg hs, lookup_append, lookup_cons_ite, if_neg h]
    simp

theorem keys_dictSet_of_isSome {β : Type} {m : Store β} {k : String} (v : β)
    (h : (m.lookup k).isSome) :
    (dictSet m k v).map Prod.fst = m.map Prod.fst := by
  unfold dictSet
  rw [if_pos h, List.map_map]
  apply List.map_congr_left
  intro e _
  by_cases hk : e.1 = k
  · simp [hk]
  · simp [hk, beq_false_of_ne hk]

theorem not_mem_keys_of_lookup_eq_none {β : Type} {m : Store β} {k : String}
    (h : m.lookup k = none) : k ∉ m.map Prod.fst := by
  intro hk
  rcases List.mem_map.mp hk with ⟨e, he, hek⟩
  exact lookup_eq_none_iff.mp h e he hek

theorem WFStore_dictSet {β : Type} {m : Store β} (hwf : WFStore m) (k : String) (v : β) :
    WFStore (dictSet m k v) := by
  by_cases hs : (m.lookup k).isSome
  · unfold WFStore
    rw [keys_dictSet_of_isSome v hs]
    exact hwf
  · have hnone := Option.not_isSome_iff_eq_none.mp hs
    unfold WFStore dictSet
    rw [if_neg hs, List.map_append]
    simp [List.nodup_append, hwf, not_mem_keys_of_lookup_eq_none hnone]

theorem mem_dictSet {β : Type} {m : Store β} {k : String} {v x : _} (hx : x ∈ dictSet m k v) :
    x = (k, v) ∨ (x ∈ m ∧ x.1 ≠ k) := by
  unfold dictSet at hx
  by_cases hs : (m.lookup k).isSome
  · rw [if_pos hs] at hx
    rcases List.mem_map.mp hx with ⟨e, he, hfe⟩
    by_cases hk : e.1 = k
    · left
      rw [← hfe, if_pos (by simpa using hk)]
    · right
      rw [← hfe, if_neg (by simpa using hk)]
      exact ⟨he, hk⟩
  · rw [if_neg hs] at hx
    have hnone := Option.not_isSome_iff_eq_none.mp hs
    rcases List.mem_append.mp hx with h1 | h2
    · exact Or.inr ⟨h1, lookup_eq_none_iff.mp hnone x h1⟩
    · exact Or.inl (by simpa using h2)

theorem mem_of_mem_dictErase {β : Type} {m : Store β} {k : String} {x : _}
    (h : x ∈ dictErase m k) : x ∈ m :=
  (List.eraseP_sublist m).subset h

theorem WFStore_dictErase {β : Type} {m : Store β} (hwf : WFStore m) (k : String) :
    WFStore (dictErase m k) :=
  hwf.sublist ((List.eraseP_sublist m).map Prod.fst)

theorem ne_key_of_mem_dictErase {β : Type} {m : Store β} (hwf : WFStore m) {k : String}
    {x : _} (hx : x ∈ dictErase m k) : x.1 ≠ k := by
  induction m with
  | nil => simp [dictErase] at hx
  | cons e t ih =>
    have hwf2 := List.nodup_cons.mp hwf
    unfold dictErase at hx
    rw [List.eraseP_cons] at hx
    by_cases hk : e.1 = k
    · rw [show (e.1 == k) = true from by simpa using hk, cond_true] at hx
      intro hxk
      apply hwf2.1
      rw [hk, ← hxk]
      exact List.mem_map_of_mem Prod.fst hx
    · rw [beq_false_of_ne hk, cond_false] at hx
      rcases List.mem_cons.mp hx with rfl | hxt
      · exact hk
      · exact ih hwf2.2 hxt

theorem lookup_dictErase_self {β : Type} {m : Store β} (hwf : WFStore m) (k : String) :
    (dictErase m k).lookup k = none :=
  lookup_eq_none_iff.mpr (fun e he => ne_key_of_mem_dictErase hwf he)

theorem lookup_dictErase_ne {β : Type} (m : Store β) {k s : String} (h : s ≠ k) :
    (dictErase m k).lookup s = m.lookup s := by
  induction m with
  | nil => rfl
  | cons e t ih =>
    unfold dictErase
    rw [List.eraseP_cons]
    by_cases hk : e.1 = k
    · rw [show (e.1 == k) = true from by simpa using hk, cond_true, lookup_cons_ite]
      rw [if_neg (by rw [hk]; exact h)]
    · rw [beq_false_of_ne hk, cond_false, lookup_cons_ite, lookup_cons_ite]
      by_cases hs : s = e.1 <;> simp [hs]
      exact ih

theorem dictErase_append_singleton {β : Type} {m : Store β} {k : String}
    (h : ∀ e ∈ m, e.1 ≠ k) (v : β) : dictErase (m ++ [(k, v)]) k = m := by
  induction m with
  | nil => simp [dictErase, List.eraseP_cons]
  | cons e t ih =>
    unfold dictErase
    rw [List.cons_append, List.eraseP_cons]
    rw [beq_false_of_ne (h e (List.mem_cons_self e t)), cond_false]
    rw [show (t ++ [(k, v)]).eraseP (fun e => e.1 == k) = dictErase (t ++ [(k, v)]) k from rfl]
    rw [ih (fun x hx => h x (List.mem_cons_of_mem _ hx))]


/-! ### Value lemmas -/

theorem totalPortfolioValue_eq_sum {m : Store Holding} {t : ℚ}
    (h : totalPortfolioValue m = some t) :
    t = (m.map (fun e => holdingValue e.2)).sum := by
  induction m generalizing t with
  | nil =>
    simp [totalPortfolioValue] at h
    simp [← h]
  | cons e r ih =>
    unfold totalPortfolioValue at h
    cases hcp : e.2.current_price with
    | none =>
      rw [hcp] at h
      cases h
    | some cp =>
      rw [hcp] at h
      cases hr : totalPortfolioValue r with
      | none =>
        rw [hr] at h
        cases h
      | some s =>
        rw [hr] at h
        rw [Option.some_inj] at h
        rw [List.map_cons, List.sum_cons, ← h, ih hr]
        simp [holdingValue, hcp]

theorem totalPortfolioValue_none_of_mem {m : Store Holding} {e : String × Holding}
    (hm : e ∈ m) (hcp : e.2.current_price = none) : totalPortfolioValue m = none := by
  induction m with
  | nil => simp at hm
  | cons a r ih =>
    rcases List.mem_cons.mp hm with rfl | hr
    · cases h2 : totalPortfolioValue r <;> simp [totalPortfolioValue, hcp, h2]
    · cases hcp2 : a.2.current_price <;> simp [totalPortfolioValue, hcp2, ih hr]

theorem totalPortfolioValue_some_nonneg {m : Store Holding}
    (hall : ∀ e ∈ m, 0 ≤ e.2.quantity ∧ ∃ cp, e.2.current_price = some cp ∧ 0 ≤ cp) :
    ∃ t, totalPortfolioValue m = some t ∧ 0 ≤ t := by
  induction m with
  | nil => exact ⟨0, rfl, le_refl 0⟩
  | cons a r ih =>
    obtain ⟨hq, cp, hcp, hcp0⟩ := hall a (List.mem_cons_self a r)
    obtain ⟨t, ht, ht0⟩ := ih (fun x hx => hall x (List.mem_cons_of_mem _ hx))
    refine ⟨a.2.quantity * cp + t, ?_, ?_⟩
    · simp [totalPortfolioValue, hcp, ht]
    · exact add_nonneg (mul_nonneg hq hcp0) ht0

theorem totalPortfolioValue_pos {m : Store Holding} (hne : m ≠ [])
    (hall : ∀ e ∈ m, 0 < e.2.quantity ∧ ∃ cp, e.2.current_price = some cp ∧ 0 < cp) :
    ∃ t, totalPortfolioValue m = some t ∧ 0 < t := by
  cases m with
  | nil => exact absurd rfl hne
  | cons a r =>
    obtain ⟨hq, cp, hcp, hcp0⟩ := hall a (List.mem_cons_self a r)
    have hrest : ∀ e ∈ r, 0 ≤ e.2.quantity ∧ ∃ cp2, e.2.current_price = some cp2 ∧ 0 ≤ cp2 := by
      intro x hx
      obtain ⟨h1, cp2, h2, h3⟩ := hall x (List.mem_cons_of_mem _ hx)
      exact ⟨le_of_lt h1, cp2, h2, le_of_lt h3⟩
    obtain ⟨t, ht, ht0⟩ := totalPortfolioValue_some_nonneg hrest
    refine ⟨a.2.quantity * cp + t, ?_, ?_⟩
    · simp [totalPortfolioValue, hcp, ht]
    · have : 0 < a.2.quantity * cp := mul_pos hq hcp0
      linarith

theorem optionSum_eq_map {f : String → Option ℚ} {g : String → ℚ} {ks : List String}
    (h : ∀ s ∈ ks, f s = some (g s)) : optionSum f ks = some ((ks.map g).sum) := by
  induction ks with
  | nil => rfl
  | cons s r ih =>
    unfold optionSum
    rw [h s (List.mem_cons_self s r), ih (fun x hx => h x (List.mem_cons_of_mem _ hx))]
    simp

theorem sumReturns_eq_sum {m : Store Holding}
    (hall : ∀ e ∈ m, ∃ cp pp, e.2.current_price = some cp ∧
      e.2.purchase_price = some pp ∧ pp ≠ 0) :
    sumReturns m = some ((m.map (fun e =>
      (e.2.current_price.getD 0 - e.2.purchase_price.getD 0) /
        e.2.purchase_price.getD 0)).sum) := by
  induction m with
  | nil => rfl
  | cons a r ih =>
    obtain ⟨cp, pp, hcp, hpp, hpp0⟩ := hall a (List.mem_cons_self a r)
    have hs : stockReturn a.2 = some ((cp - pp) / pp) := by
      simp [stockReturn, hcp, hpp, hpp0]
    unfold sumReturns
    rw [hs, ih (fun x hx => hall x (List.mem_cons_of_mem _ hx))]
    simp [hcp, hpp]

theorem sumReturns_none_of_mem {m : Store Holding} {e : String × Holding}
    (hm : e ∈ m) (hcp : e.2.current_price = none) : sumReturns m = none := by
  induction m with
  | nil => simp at hm
  | cons a r ih =>
    rcases List.mem_cons.mp hm with rfl | hr
    · have hs : stockReturn e.2 = none := by simp [stockReturn, hcp]
      cases h2 : sumReturns r <;> simp [sumReturns, hs, h2]
    · cases hs : stockReturn a.2 <;> simp [sumReturns, hs, ih hr]

/-! ### Trade executor invariant lemmas -/

theorem buy_stock_good {p p1 : Persona} {s : String} {a : ℚ}
    (hg : GoodStore p.current_investments) (ha : 0 < a)
    (hb : buy_stock p s a = some p1) : GoodStore p1.current_investments := by
  unfold buy_stock at hb
  cases hl : p.current_investments.lookup s with
  | some h =>
    rw [hl, Option.some_inj] at hb
    constructor
    · rw [← hb]
      exact WFStore_dictSet hg.1 _ _
    · rw [← hb]
      intro x hx
      rcases mem_dictSet hx with rfl | ⟨hxm, _⟩
      · have hq : 0 < h.quantity := hg.2 (s, h) (mem_of_lookup_eq_some hl)
        simpa using add_pos hq ha
      · exact hg.2 x hxm
  | none =>
    rw [hl] at hb
    cases hm : p.market_knowledge.lookup s with
    | none =>
      rw [hm] at hb
      cases hb
    | some obs =>
      rw [hm, Option.some_inj] at hb
      constructor
      · rw [← hb]
        show ((p.current_investments ++ _).map Prod.fst).Nodup
        rw [List.map_append]
        simp [List.nodup_append, hg.1, not_mem_keys_of_lookup_eq_none hl]
      · rw [← hb]
        intro x hx
        rcases List.mem_append.mp hx with hx1 | hx2
        · exact hg.2 x hx1
        · rw [List.mem_singleton.mp hx2]
          simpa using ha

theorem sell_stock_good {p : Persona} {s : String} {a : ℚ}
    (hg : GoodStore p.current_investments) :
    GoodStore (sell_stock p s a).current_investments := by
  unfold sell_stock
  cases hl : p.current_investments.lookup s with
  | none => simpa only [hl] using hg
  | some h =>
    by_cases hle : a ≤ h.quantity
    · simp only [hl, if_pos hle]
      by_cases h0 : h.quantity - a = 0
      · rw [if_pos h0]
        have hwf1 : WFStore (dictSet p.current_investments s
            { h with quantity := h.quantity - a }) := WFStore_dictSet hg.1 _ _
        constructor
        · exact WFStore_dictErase hwf1 _
        · intro x hx
          have hx1 := mem_of_mem_dictErase hx
          have hxk := ne_key_of_mem_dictErase hwf1 hx
          rcases mem_dictSet hx1 with rfl | ⟨hxm, _⟩
          · exact absurd rfl hxk
          · exact hg.2 x hxm
      · rw [if_neg h0]
        constructor
        · exact WFStore_dictSet hg.1 _ _
        · intro x hx
          rcases mem_dictSet hx with rfl | ⟨hxm, _⟩
          · have hnn : 0 ≤ h.quantity - a := sub_nonneg.mpr hle
            simpa using lt_of_le_of_ne hnn (Ne.symm h0)
          · exact hg.2 x hxm
    · simp only [hl, if_neg hle]
      exact hg

theorem applyOps_good {ops : List TradeOp} :
    ∀ {p p1 : Persona}, GoodStore p.current_investments →
      (∀ op ∈ ops, 0 < op.amount) → applyOps p ops = some p1 →
      GoodStore p1.current_investments := by
  induction ops with
  | nil =>
    intro p p1 hg _ happ
    rw [applyOps, Option.some_inj] at happ
    rw [← happ]
    exact hg
  | cons op ops ih =>
    intro p p1 hg hpos happ
    rw [applyOps] at happ
    cases hop : applyOp p op with
    | none =>
      rw [hop] at happ
      cases happ
    | some q =>
      rw [hop, Option.some_bind] at happ
      have hq : GoodStore q.current_investments := by
        cases op with
        | buy s a => exact buy_stock_good hg (hpos _ (List.mem_cons_self _ _)) hop
        | sell s a =>
          have : sell_stock p s a = q := by
            rw [show applyOp p (TradeOp.sell s a) = some (sell_stock p s a) from rfl,
              Option.some_inj] at hop
            exact hop
          rw [← this]
          exact sell_stock_good hg
      exact ih hq (fun o ho => hpos o (List.mem_cons_of_mem _ ho)) happ

/-! ### Further helper lemmas -/

theorem dictSet_append_singleton {β : Type} {m : Store β} {k : String}
    (hm : ∀ e ∈ m, e.1 ≠ k) (v w : β) :
    dictSet (m ++ [(k, v)]) k w = m ++ [(k, w)] := by
  unfold dictSet
  rw [if_pos (by rw [lookup_append, lookup_eq_none_iff.mpr hm, Option.none_or,
    lookup_cons_ite, if_pos rfl]; rfl)]
  rw [List.map_append, map_set_id hm]
  congr 1
  simp

theorem sell_stock_all_of_append (p1 : Persona) (m : Store Holding) (s : String)
    (hn : Holding) (q : ℚ)
    (hinv : p1.current_investments = m ++ [(s, hn)])
    (hm : ∀ e ∈ m, e.1 ≠ s) (hq : hn.quantity = q) :
    sell_stock p1 s q = { p1 with current_investments := m } := by
  have hlook : p1.current_investments.lookup s = some hn := by
    rw [hinv, lookup_append, lookup_eq_none_iff.mpr hm, Option.none_or,
      lookup_cons_ite, if_pos rfl]
  unfold sell_stock
  simp only [hlook]
  rw [hq, if_pos (le_refl q), if_pos (sub_self q)]
  rw [hinv, dictSet_append_singleton hm, dictErase_append_singleton hm]

theorem totalPortfolioValue_eq_sum_of_prices {m : Store Holding}
    (hall : ∀ e ∈ m, (e.2.current_price).isSome) :
    totalPortfolioValue m = some ((m.map (fun e => holdingValue e.2)).sum) := by
  induction m with
  | nil => rfl
  | cons a r ih =>
    obtain ⟨cp, hcp⟩ := Option.isSome_iff_exists.mp (hall a (List.mem_cons_self a r))
    rw [List.map_cons, List.sum_cons]
    have hr := ih (fun x hx => hall x (List.mem_cons_of_mem _ hx))
    simp [totalPortfolioValue, hcp, hr, holdingValue]

/-! ### Claim theorems -/

/-- C2 counterexample: on a freshly initialized agent the portfolio store
is empty, and `calculate_current_allocation` does not return 0 there — it
fails with a key-lookup error (`none`), refuting the claim that the call
returns 0 and raises no error. -/
theorem C2_empty_allocation_counterexample :
    calculate_current_allocation (personaInit "a" "b") "StockA" ≠ some 0 := by
  decide

/-- C2 (amended): when the portfolio store is empty,
`calculate_current_allocation(symbol)` fails with a key-lookup error
(modelled as `none`) for any symbol — the stock lookup happens before the
zero-total guard — instead of returning 0. -/
theorem C2_empty_allocation_raises (p : Persona) (s : String)
    (h : p.current_investments = []) : calculate_current_allocation p s = none := by
  simp [calculate_current_allocation, h, totalPortfolioValue]

/-- Witness for C2 (amended) at a concrete input. -/
theorem C2_empty_allocation_raises_witness :
    calculate_current_allocation (personaInit "x" "y") "StockB" = none :=
  C2_empty_allocation_raises (personaInit "x" "y") "StockB" rfl

/-- C3: buying quantity q of a symbol absent from the portfolio but
present in the market knowledge store and then selling the same q returns
the agent to exactly its prior state: the holding is removed and all
other holdings (and fields) are unchanged. -/
theorem C3_buy_sell_roundtrip (p : Persona) (s : String) (q : ℚ)
    (hnew : p.current_investments.lookup s = none)
    (hmkt : (p.market_knowledge.lookup s).isSome)
    (hq : 0 < q) :
    (buy_stock p s q).map (fun p1 => sell_stock p1 s q) = some p := by
  obtain ⟨obs, hobs⟩ := Option.isSome_iff_exists.mp hmkt
  have hne := lookup_eq_none_iff.mp hnew
  have hsell := sell_stock_all_of_append
    { p with current_investments := p.current_investments ++ [(s, { quantity := q, purchase_price := some obs.current_price, current_price := none })] }
    p.current_investments s
    { quantity := q, purchase_price := some obs.current_price, current_price := none }
    q rfl hne rfl
  unfold buy_stock
  simp only [hnew, hobs, Option.map_some']
  rw [hsell]

/-- Witness for C3 at a concrete input: a fresh agent buys then sells 10
units of StockA and is returned exactly to its initial state. -/
theorem C3_buy_sell_roundtrip_witness :
    (buy_stock (personaInit "a" "b") "StockA" 10).map
      (fun p1 => sell_stock p1 "StockA" 10) = some (personaInit "a" "b") :=
  C3_buy_sell_roundtrip (personaInit "a" "b") "StockA" 10 rfl (by decide) (by decide)

/-- C5: `buy_stock` increments the quantity of an existing holding in
place (leaving its other fields and all other holdings unchanged), and
for a new symbol inserts a holding whose quantity is the bought amount
and whose purchase price is the market store's current price. -/
theorem C5_buy_stock_spec (p : Persona) (s : String) (a : ℚ) :
    (∀ h, p.current_investments.lookup s = some h → ∀ s2,
      (buy_stock p s a).map (fun p1 => p1.current_investments.lookup s2) =
        some (if s2 = s then some { h with quantity := h.quantity + a }
              else p.current_investments.lookup s2)) ∧
    (p.current_investments.lookup s = none →
      ∀ obs, p.market_knowledge.lookup s = some obs → ∀ s2,
      (buy_stock p s a).map (fun p1 => p1.current_investments.lookup s2) =
        some (if s2 = s
              then some { quantity := a, purchase_price := some obs.current_price,
                          current_price := none }
              else p.current_investments.lookup s2)) := by
  constructor
  · intro h hl s2
    unfold buy_stock
    rw [hl, Option.map_some', Option.some_inj]
    by_cases hs : s2 = s
    · rw [if_pos hs, hs]
      exact lookup_dictSet_self _ _ _
    · rw [if_neg hs]
      exact lookup_dictSet_ne _ _ hs
  · intro hl obs hobs s2
    unfold buy_stock
    rw [hl, hobs, Option.map_some', Option.some_inj]
    by_cases hs : s2 = s
    · rw [if_pos hs, hs]
      rw [lookup_append, hl, Option.none_or, lookup_cons_ite, if_pos rfl]
    · rw [if_neg hs, lookup_append, lookup_cons_ite, if_neg hs]
      rw [List.lookup_nil, Option.or_none]

/-- Witness for C5 at the spec's Scenario A: buying 10 units of StockA
(market price 100) on a fresh agent yields the holding with quantity 10
and purchase price 100 (and no current price). -/
theorem C5_buy_stock_spec_witness :
    (buy_stock (personaInit "a" "b") "StockA" 10).map
      (fun p1 => p1.current_investments.lookup "StockA") =
      some (some { quantity := 10, purchase_price := some 100,
                   current_price := none }) := by
  have h := (C5_buy_stock_spec (personaInit "a" "b") "StockA" 10).2 rfl
    { current_price := 100, sentiment := 6/10, is_undervalued := true }
    rfl "StockA"
  simpa using h

/-- C7: `calculate_amount_to_buy` equals
(desired - current) * totalPortfolioValue / current_price(stock), where
the total is the sum of quantity * current_price over all holdings. -/
theorem C7_amount_to_buy_formula (p : Persona) (s : String)
    (d c cp : ℚ) (h : Holding)
    (hall : ∀ e ∈ p.current_investments, (e.2.current_price).isSome)
    (hs : p.current_investments.lookup s = some h)
    (hcp : h.current_price = some cp) (hcp0 : 0 < cp) :
    calculate_amount_to_buy p s d c =
      some ((d - c) * (p.current_investments.map (fun e => holdingValue e.2)).sum / cp) := by
  have hT := totalPortfolioValue_eq_sum_of_prices hall
  simp [calculate_amount_to_buy, hT, hs, hcp, ne_of_gt hcp0]
  congr 1
  ring

/-- Witness for C7 at the spec's Scenario D: two holdings each worth 500,
desired allocation 0.7 versus current 0.5 on a stock priced 100 gives a
buy amount of (0.7 - 0.5) * 1000 / 100 = 2. -/
theorem C7_amount_to_buy_formula_witness :
    calculate_amount_to_buy personaTwo "StockA" (7/10) (1/2) = some 2 := by
  have h := C7_amount_to_buy_formula personaTwo "StockA" (7/10) (1/2) 100
    { quantity := 5, purchase_price := some 100, current_price := some 100 }
    (by decide) (by decide) rfl (by norm_num)
  rw [h]
  norm_num [personaTwo, holdingValue]

/-- C9: neither `buy_stock` nor `sell_stock` ever changes the agent's
`cash_reserves` or `transaction_history`, for any arguments and any
starting state. -/
theorem C9_trades_frame (p : Persona) (s : String) (a : ℚ) :
    (∀ p1, buy_stock p s a = some p1 →
      p1.cash_reserves = p.cash_reserves ∧
      p1.transaction_history = p.transaction_history) ∧
    ((sell_stock p s a).cash_reserves = p.cash_reserves ∧
     (sell_stock p s a).transaction_history = p.transaction_history) := by
  constructor
  · intro p1 hb
    unfold buy_stock at hb
    cases hl : p.current_investments.lookup s with
    | some h =>
      rw [hl, Option.some_inj] at hb
      rw [← hb]
      exact ⟨rfl, rfl⟩
    | none =>
      rw [hl] at hb
      cases hm : p.market_knowledge.lookup s with
      | some obs =>
        rw [hm, Option.some_inj] at hb
        rw [← hb]
        exact ⟨rfl, rfl⟩
      | none =>
        rw [hm] at hb
        cases hb
  · unfold sell_stock
    cases hl : p.current_investments.lookup s with
    | none =>
      simp [hl]
    | some h =>
      simp only [hl]
      by_cases hle : a ≤ h.quantity
      · rw [if_pos hle]
        by_cases h0 : h.quantity - a = 0
        · rw [if_pos h0]
          exact ⟨rfl, rfl⟩
        · rw [if_neg h0]
          exact ⟨rfl, rfl⟩
      · rw [if_neg hle]
        exact ⟨rfl, rfl⟩

/-- Witness for C9 at a concrete input: the state after buying 10 StockA
on a fresh agent keeps cash reserves and transaction history. -/
theorem C9_trades_frame_witness :
    personaFreshBuy.cash_reserves = (personaInit "a" "b").cash_reserves ∧
    personaFreshBuy.transaction_history = (personaInit "a" "b").transaction_history :=
  (C9_trades_frame (personaInit "a" "b") "StockA" 10).1 personaFreshBuy rfl

/-- C1 counterexample: with arbitrary quantity arguments the claimed
invariant fails.  From a freshly initialized agent — whose empty store
trivially has only positive holdings — the single operation
buy StockA 0 leaves a holding whose quantity is exactly 0 in the store. -/
theorem C1_invariant_counterexample :
    applyOps (personaInit "a" "b") [TradeOp.buy "StockA" 0] = some personaZeroHolding ∧
    ("StockA", { quantity := 0, purchase_price := some 100, current_price := none }) ∈
      personaZeroHolding.current_investments ∧
    ({ quantity := 0, purchase_price := some 100, current_price := none } : Holding).quantity
      = 0 :=
  ⟨rfl, List.mem_cons_self _ _, rfl⟩

/-- C1 (amended): after any sequence of buy/sell operations whose
quantity arguments are all strictly positive, starting from a well-formed
store in which every holding has positive quantity, the resulting store
has no holding with negative quantity and none with quantity exactly 0.
(The original claim, with arbitrary quantity arguments, is refuted by
`C1_invariant_counterexample`: buying a non-positive quantity creates a
non-positive holding.) -/
theorem C1_invariant_positive_ops (p p1 : Persona) (ops : List TradeOp)
    (hwf : WFStore p.current_investments)
    (hpos : ∀ e ∈ p.current_investments, 0 < e.2.quantity)
    (hops : ∀ op ∈ ops, 0 < op.amount)
    (happ : applyOps p ops = some p1) :
    ∀ e ∈ p1.current_investments, ¬ e.2.quantity < 0 ∧ e.2.quantity ≠ 0 := by
  have hg := applyOps_good ⟨hwf, hpos⟩ hops happ
  intro e he
  have hq := hg.2 e he
  exact ⟨not_lt_of_gt hq, ne_of_gt hq⟩

/-- Witness for C1 (amended) at a concrete input: one positive buy on a
fresh agent, instantiated at the resulting single holding. -/
theorem C1_invariant_positive_ops_witness :
    ¬ ({ quantity := 10, purchase_price := some 100,
         current_price := none } : Holding).quantity < 0 ∧
    ({ quantity := 10, purchase_price := some 100,
       current_price := none } : Holding).quantity ≠ 0 :=
  C1_invariant_positive_ops (personaInit "a" "b") personaFreshBuy
    [TradeOp.buy "StockA" 10] (by decide) (by decide) (by decide) rfl
    ("StockA", { quantity := 10, purchase_price := some 100, current_price := none })
    (List.mem_cons_self _ _)

/-- C4: `sell_stock` with the symbol held in sufficient quantity
decrements the holding in place and deletes it when the remaining
quantity is exactly 0, leaving all other holdings untouched; when the
precondition fails (symbol absent or insufficient quantity) the entire
agent state is returned unchanged, with no error or signal (the method is
total). -/
theorem C4_sell_stock_spec (p : Persona) (s : String) (a : ℚ)
    (hwf : WFStore p.current_investments) :
    (∀ h, p.current_investments.lookup s = some h → a ≤ h.quantity →
      ((sell_stock p s a).current_investments.lookup s =
        (if h.quantity - a = 0 then none
         else some { h with quantity := h.quantity - a })) ∧
      (∀ s2, s2 ≠ s → (sell_stock p s a).current_investments.lookup s2 =
        p.current_investments.lookup s2)) ∧
    ((∀ h, p.current_investments.lookup s = some h → ¬ a ≤ h.quantity) →
      sell_stock p s a = p) := by
  constructor
  · intro h hl hle
    unfold sell_stock
    simp only [hl, if_pos hle]
    constructor
    · by_cases h0 : h.quantity - a = 0
      · rw [if_pos h0, if_pos h0]
        exact lookup_dictErase_self (WFStore_dictSet hwf _ _) s
      · rw [if_neg h0, if_neg h0]
        exact lookup_dictSet_self _ _ _
    · intro s2 hs2
      by_cases h0 : h.quantity - a = 0
      · rw [if_pos h0]
        rw [show ({ p with current_investments := dictErase (dictSet p.current_investments s { h with quantity := h.quantity - a }) s } : Persona).current_investments = dictErase (dictSet p.current_investments s { h with quantity := h.quantity - a }) s from rfl]
        rw [lookup_dictErase_ne _ hs2, lookup_dictSet_ne _ _ hs2]
      · rw [if_neg h0]
        exact lookup_dictSet_ne _ _ hs2
  · intro hfail
    unfold sell_stock
    cases hl : p.current_investments.lookup s with
    | none => simp [hl]
    | some h => simp [hl, hfail h hl]

/-- Witness for C4 at the spec's Scenario C: selling the full quantity 10
of the sole holding removes it from the store. -/
theorem C4_sell_stock_spec_witness :
    (sell_stock personaOne "StockA" 10).current_investments.lookup "StockA" = none := by
  have h := ((C4_sell_stock_spec personaOne "StockA" 10 (by decide)).1
    { quantity := 10, purchase_price := some 100, current_price := some 100 }
    rfl (by decide)).1
  rw [h, if_pos (by norm_num)]

/-- C6: on a non-empty well-formed store in which every holding has
positive quantity and a present, positive current price, the allocations
of the held symbols sum to exactly 1. -/
theorem C6_allocations_sum_to_one (p : Persona)
    (hne : p.current_investments ≠ [])
    (hwf : WFStore p.current_investments)
    (hall : ∀ e ∈ p.current_investments, 0 < e.2.quantity ∧
      (e.2.current_price).isSome ∧ 0 < e.2.current_price.getD 0) :
    allocationSum p = some 1 := by
  have hall2 : ∀ e ∈ p.current_investments, 0 < e.2.quantity ∧
      ∃ cp, e.2.current_price = some cp ∧ 0 < cp := by
    intro e he
    obtain ⟨h1, h2, h3⟩ := hall e he
    obtain ⟨cp, hcp⟩ := Option.isSome_iff_exists.mp h2
    refine ⟨h1, cp, hcp, ?_⟩
    rw [hcp] at h3
    simpa using h3
  obtain ⟨T, hT, hT0⟩ := totalPortfolioValue_pos hne hall2
  have hkey : ∀ s2 ∈ p.current_investments.map Prod.fst,
      calculate_current_allocation p s2 =
        some (((p.current_investments.lookup s2).elim 0 holdingValue) / T) := by
    intro s2 hs2
    obtain ⟨e, he, hes⟩ := List.mem_map.mp hs2
    have hlook : p.current_investments.lookup s2 = some e.2 := by
      rw [← hes]
      exact lookup_of_mem hwf (by simpa using he)
    obtain ⟨_, cp, hcp, _⟩ := hall2 e he
    simp [calculate_current_allocation, hT, hlook, hcp, hT0, holdingValue]
  have hmap := optionSum_eq_map hkey
  unfold allocationSum
  rw [hmap, Option.some_inj, List.map_map]
  have hcong : p.current_investments.map
      ((fun s2 => ((p.current_investments.lookup s2).elim 0 holdingValue) / T) ∘ Prod.fst) =
      p.current_investments.map (fun e => holdingValue e.2 * T⁻¹) := by
    apply List.map_congr_left
    intro e he
    have hlook : p.current_investments.lookup e.1 = some e.2 :=
      lookup_of_mem hwf (by simpa using he)
    simp [hlook, div_eq_mul_inv]
  rw [hcong, List.sum_map_mul_right, ← totalPortfolioValue_eq_sum hT]
  exact mul_inv_cancel₀ (ne_of_gt hT0)

/-- Witness for C6 at a concrete input: the two-holding portfolio worth
500 + 500. -/
theorem C6_allocations_sum_to_one_witness : allocationSum personaTwo = some 1 :=
  C6_allocations_sum_to_one personaTwo (by decide) (by decide) (by decide)

/-- C8: on a non-empty store in which every holding carries a current
price and a positive purchase price, `evaluate_performance` returns the
arithmetic mean over holdings of (current - purchase) / purchase. -/
theorem C8_evaluate_performance_mean (p : Persona)
    (hne : p.current_investments ≠ [])
    (hall : ∀ e ∈ p.current_investments, (e.2.current_price).isSome ∧
      (e.2.purchase_price).isSome ∧ 0 < e.2.purchase_price.getD 0) :
    evaluate_performance p =
      some ((p.current_investments.map (fun e =>
        (e.2.current_price.getD 0 - e.2.purchase_price.getD 0) /
          e.2.purchase_price.getD 0)).sum / (p.current_investments.length : ℚ)) := by
  have hall2 : ∀ e ∈ p.current_investments, ∃ cp pp, e.2.current_price = some cp ∧
      e.2.purchase_price = some pp ∧ pp ≠ 0 := by
    intro e he
    obtain ⟨h1, h2, h3⟩ := hall e he
    obtain ⟨cp, hcp⟩ := Option.isSome_iff_exists.mp h1
    obtain ⟨pp, hpp⟩ := Option.isSome_iff_exists.mp h2
    have h3b : 0 < pp := by simpa [hpp] using h3
    exact ⟨cp, pp, hcp, hpp, ne_of_gt h3b⟩
  have hs := sumReturns_eq_sum hall2
  have hlen : p.current_investments.length ≠ 0 := by simpa using hne
  simp [evaluate_performance, hs, hlen]

/-- Witness for C8 at the spec's Scenario E: returns +0.10 and -0.10
average to exactly 0. -/
theorem C8_evaluate_performance_mean_witness :
    evaluate_performance personaPerf = some 0 := by
  have h := C8_evaluate_performance_mean personaPerf (by decide) (by decide)
  rw [h]
  norm_num [personaPerf]

/-- C10: a holding created by `buy_stock` for a new symbol has only
quantity and purchase price — its current price is absent — and once the
store contains any holding without a current price, the two amount
calculators, `calculate_current_allocation` (for every symbol) and
`evaluate_performance` all fail with a key-lookup error (`none`). -/
theorem C10_missing_current_price (p : Persona) :
    (∀ s a obs, p.current_investments.lookup s = none →
      p.market_knowledge.lookup s = some obs →
      (buy_stock p s a).map (fun p1 => p1.current_investments.lookup s) =
        some (some { quantity := a, purchase_price := some obs.current_price,
                     current_price := none })) ∧
    (∀ e, e ∈ p.current_investments → e.2.current_price = none →
      ∀ s2 d c, calculate_current_allocation p s2 = none ∧
        calculate_amount_to_buy p s2 d c = none ∧
        calculate_amount_to_sell p s2 d c = none ∧
        evaluate_performance p = none) := by
  constructor
  · intro s a obs hl hm
    unfold buy_stock
    rw [hl, hm, Option.map_some', Option.some_inj]
    rw [show ({ p with current_investments := p.current_investments ++ [(s, { quantity := a, purchase_price := some obs.current_price, current_price := none })] } : Persona).current_investments = p.current_investments ++ [(s, { quantity := a, purchase_price := some obs.current_price, current_price := none })] from rfl]
    rw [lookup_append, hl, Option.none_or, lookup_cons_ite, if_pos rfl]
  · intro e he hcp s2 d c
    have htot := totalPortfolioValue_none_of_mem he hcp
    refine ⟨?_, ?_, ?_, ?_⟩
    · simp [calculate_current_allocation, htot]
    · simp [calculate_amount_to_buy, htot]
    · simp [calculate_amount_to_sell, htot]
    · simp [evaluate_performance, sumReturns_none_of_mem he hcp]

/-- Witness for C10 at a concrete input: the state right after a fresh
buy of StockA; both the allocation calculator and the evaluator fail. -/
theorem C10_missing_current_price_witness :
    calculate_current_allocation personaFreshBuy "StockA" = none ∧
    evaluate_performance personaFreshBuy = none := by
  have h := (C10_missing_current_price personaFreshBuy).2
    ("StockA", { quantity := 10, purchase_price := some 100, current_price := none })
    (List.mem_cons_self _ _) rfl "StockA" 0 0
  exact ⟨h.1, h.2.2.2⟩
